import Mathlib

/-!
# Verification of the Caffe GPU softmax layer

Shallow embedding of `src/caffe/layers/softmax_layer.cu` (the CUDA backend;
the GreenTea/OpenCL branch launches the same kernels in the same order).

Modelling decisions:
* Device buffers are total functions `ℕ → ℝ`; floating-point arithmetic is
  idealized as real arithmetic, with `exp` the real exponential.
* `CUDA_KERNEL_LOOP(index, bound)` runs the kernel body once for every
  `index < bound`, each worker writing only its own output cell; a kernel is
  therefore a pure function from the old buffer contents to the new ones,
  leaving every cell outside `[0, bound)` untouched.
* The single-precision constant `FLT_MAX` from `<cfloat>` is the exact real
  number `(2^24 - 1) * 2^104 = 2^128 - 2^104`.
-/

namespace CaffeSoftmax

/-- The single-precision `FLT_MAX` constant from `<cfloat>`, as an exact real:
`(2 - 2^-23) * 2^127 = 2^128 - 2^104`. -/
noncomputable def FLT_MAX : ℝ := 2 ^ 128 - 2 ^ 104

/-- `kernel_channel_max` (softmax_layer.cu lines 18-32): for every
`index < num * spatial_dim`, with `n = index / spatial_dim` and
`s = index % spatial_dim`, scans the `channels` values of group `(n, s)`
with accumulator initialized to `-FLT_MAX` and writes the running maximum
to `out[index]`. Cells outside the launch bound keep their old value. -/
noncomputable def kernel_channel_max (num channels spatial_dim : ℕ)
    (data out : ℕ → ℝ) : ℕ → ℝ :=
  fun index =>
    if index < num * spatial_dim then
      let n := index / spatial_dim
      let s := index % spatial_dim
      (List.range channels).foldl
        (fun maxval c => max (data ((n * channels + c) * spatial_dim + s)) maxval)
        (-FLT_MAX)
    else out index

/-- `kernel_channel_subtract` (softmax_layer.cu lines 34-45): for every
`index < count`, with `n = index / channels / spatial_dim` and
`s = index % spatial_dim`, performs `data[index] -= channel_max[n * spatial_dim + s]`. -/
noncomputable def kernel_channel_subtract (count num channels spatial_dim : ℕ)
    (channel_max data : ℕ → ℝ) : ℕ → ℝ :=
  fun index =>
    if index < count then
      data index -
        channel_max ((index / channels / spatial_dim) * spatial_dim + index % spatial_dim)
    else data index

/-- `kernel_exp` (softmax_layer.cu lines 47-53): `out[index] = exp(data[index])`
for every `index < count`. -/
noncomputable def kernel_exp (count : ℕ) (data out : ℕ → ℝ) : ℕ → ℝ :=
  fun index =>
    if index < count then Real.exp (data index) else out index

/-- `kernel_channel_sum` (softmax_layer.cu lines 55-69): for every
`index < num * spatial_dim`, accumulates the `channels` values of group
`(n, s)` starting from `0` and writes the sum to `channel_sum[index]`. -/
noncomputable def kernel_channel_sum (num channels spatial_dim : ℕ)
    (data channel_sum : ℕ → ℝ) : ℕ → ℝ :=
  fun index =>
    if index < num * spatial_dim then
      let n := index / spatial_dim
      let s := index % spatial_dim
      (List.range channels).foldl
        (fun sum c => sum + data ((n * channels + c) * spatial_dim + s)) 0
    else channel_sum index

/-- `kernel_channel_div` (softmax_layer.cu lines 71-81): for every
`index < count`, performs `data[index] /= channel_sum[n * spatial_dim + s]`
with `n = index / channels / spatial_dim`, `s = index % spatial_dim`. -/
noncomputable def kernel_channel_div (count num channels spatial_dim : ℕ)
    (channel_sum data : ℕ → ℝ) : ℕ → ℝ :=
  fun index =>
    if index < count then
      data index /
        channel_sum ((index / channels / spatial_dim) * spatial_dim + index % spatial_dim)
    else data index

/-- `kernel_channel_dot` (softmax_layer.cu lines 83-98): for every
`index < num * spatial_dim`, accumulates the per-channel products
`data_1 * data_2` of group `(n, s)` starting from `0` and writes the
inner product to `channel_dot[index]`. -/
noncomputable def kernel_channel_dot (num channels spatial_dim : ℕ)
    (data_1 data_2 channel_dot : ℕ → ℝ) : ℕ → ℝ :=
  fun index =>
    if index < num * spatial_dim then
      let n := index / spatial_dim
      let s := index % spatial_dim
      (List.range channels).foldl
        (fun dot c =>
          dot + data_1 ((n * channels + c) * spatial_dim + s) *
            data_2 ((n * channels + c) * spatial_dim + s)) 0
    else channel_dot index

/-- Modelled from the spec: `caffe_copy` (declared in
`caffe/util/math_functions.hpp`, not under src/) is the generic elementwise
copy primitive (spec section 6): `dst[i] = src[i]` for `i < count`, all other
cells of `dst` untouched. -/
noncomputable def caffe_copy (count : ℕ) (src dst : ℕ → ℝ) : ℕ → ℝ :=
  fun i => if i < count then src i else dst i

/-- Modelled from the spec: `caffe_gpu_mul` (declared in
`caffe/util/math_functions.hpp`, not under src/) is the generic binary
elementwise multiply primitive (spec section 6): `y[i] = a[i] * b[i]` for
`i < count`, all other cells of `y` untouched. -/
noncomputable def caffe_gpu_mul (count : ℕ) (a b y : ℕ → ℝ) : ℕ → ℝ :=
  fun i => if i < count then a i * b i else y i

/-- The buffers touched by `Forward_gpu`: the bottom (input) data, the top
(output) data and the `scale_` scratch buffer. -/
structure SoftmaxBufs where
  bottom : ℕ → ℝ
  top : ℕ → ℝ
  scale : ℕ → ℝ

/-- Forward stage 1 (softmax_layer.cu line 113): `caffe_copy(count, bottom_data, top_data)`. -/
noncomputable def fwdTop0 (num channels spatial_dim : ℕ) (st : SoftmaxBufs) : ℕ → ℝ :=
  caffe_copy (num * channels * spatial_dim) st.bottom st.top

/-- Forward stage 2 (lines 118-120): `kernel_channel_max` over the copied top data,
writing the scratch buffer. -/
noncomputable def fwdScale1 (num channels spatial_dim : ℕ) (st : SoftmaxBufs) : ℕ → ℝ :=
  kernel_channel_max num channels spatial_dim (fwdTop0 num channels spatial_dim st) st.scale

/-- Forward stage 3 (lines 123-125): `kernel_channel_subtract` of the scratch
maxima from the top data. -/
noncomputable def fwdTop1 (num channels spatial_dim : ℕ) (st : SoftmaxBufs) : ℕ → ℝ :=
  kernel_channel_subtract (num * channels * spatial_dim) num channels spatial_dim
    (fwdScale1 num channels spatial_dim st) (fwdTop0 num channels spatial_dim st)

/-- Forward stage 4 (lines 128-130): `kernel_exp` on the top data in place. -/
noncomputable def fwdTop2 (num channels spatial_dim : ℕ) (st : SoftmaxBufs) : ℕ → ℝ :=
  kernel_exp (num * channels * spatial_dim)
    (fwdTop1 num channels spatial_dim st) (fwdTop1 num channels spatial_dim st)

/-- Forward stage 5 (lines 133-135): `kernel_channel_sum` of the exponentials,
writing the scratch buffer. -/
noncomputable def fwdScale2 (num channels spatial_dim : ℕ) (st : SoftmaxBufs) : ℕ → ℝ :=
  kernel_channel_sum num channels spatial_dim
    (fwdTop2 num channels spatial_dim st) (fwdScale1 num channels spatial_dim st)

/-- Forward stage 6 (lines 138-140): `kernel_channel_div` of the top data by the
scratch sums. -/
noncomputable def fwdTop3 (num channels spatial_dim : ℕ) (st : SoftmaxBufs) : ℕ → ℝ :=
  kernel_channel_div (num * channels * spatial_dim) num channels spatial_dim
    (fwdScale2 num channels spatial_dim st) (fwdTop2 num channels spatial_dim st)

/-- `SoftmaxLayer::Forward_gpu` (softmax_layer.cu lines 100-141, CUDA branch):
copy, channel-max, broadcast-subtract, exponentiate, channel-sum,
broadcast-divide, in that order. Only the top and scale buffers are written. -/
noncomputable def Forward_gpu (num channels spatial_dim : ℕ) (st : SoftmaxBufs) : SoftmaxBufs :=
  { bottom := st.bottom
    top := fwdTop3 num channels spatial_dim st
    scale := fwdScale2 num channels spatial_dim st }

/-- The buffers touched by `Backward_gpu`: the top diff (upstream gradient),
the top data (forward output), the bottom diff (gradient being produced) and
the `scale_` scratch buffer. -/
structure SoftmaxGradBufs where
  top_diff : ℕ → ℝ
  top_data : ℕ → ℝ
  bottom_diff : ℕ → ℝ
  scale : ℕ → ℝ

/-- Backward stage 1 (softmax_layer.cu line 217): `caffe_copy(count, top_diff, bottom_diff)`. -/
noncomputable def bwdDiff0 (num channels spatial_dim : ℕ) (st : SoftmaxGradBufs) : ℕ → ℝ :=
  caffe_copy (num * channels * spatial_dim) st.top_diff st.bottom_diff

/-- Backward stage 2 (lines 220-222): `kernel_channel_dot(top_diff, top_data)`
into the scratch buffer. -/
noncomputable def bwdScale1 (num channels spatial_dim : ℕ) (st : SoftmaxGradBufs) : ℕ → ℝ :=
  kernel_channel_dot num channels spatial_dim st.top_diff st.top_data st.scale

/-- Backward stage 3 (lines 224-226): `kernel_channel_subtract` of the scratch
dots from the bottom diff. -/
noncomputable def bwdDiff1 (num channels spatial_dim : ℕ) (st : SoftmaxGradBufs) : ℕ → ℝ :=
  kernel_channel_subtract (num * channels * spatial_dim) num channels spatial_dim
    (bwdScale1 num channels spatial_dim st) (bwdDiff0 num channels spatial_dim st)

/-- Backward stage 4 (line 228): `caffe_gpu_mul(count, bottom_diff, top_data, bottom_diff)`. -/
noncomputable def bwdDiff2 (num channels spatial_dim : ℕ) (st : SoftmaxGradBufs) : ℕ → ℝ :=
  caffe_gpu_mul (num * channels * spatial_dim)
    (bwdDiff1 num channels spatial_dim st) st.top_data (bwdDiff1 num channels spatial_dim st)

/-- `SoftmaxLayer::Backward_gpu` (softmax_layer.cu lines 205-229): copy,
channel-dot, broadcast-subtract, elementwise multiply. The `propagate_down`
argument is received but never read, exactly as in the source. -/
noncomputable def Backward_gpu (num channels spatial_dim : ℕ) (propagate_down : List Bool)
    (st : SoftmaxGradBufs) : SoftmaxGradBufs :=
  { top_diff := st.top_diff
    top_data := st.top_data
    bottom_diff := bwdDiff2 num channels spatial_dim st
    scale := bwdScale1 num channels spatial_dim st }

/-- The mathematical channel maximum of the spec formula: the maximum over
`c < channels` of `x[(n * channels + c) * spatial_dim + s]`, defined for
`channels ≠ 0`. -/
noncomputable def specChannelMax (channels spatial_dim : ℕ) (hch : channels ≠ 0)
    (x : ℕ → ℝ) (n s : ℕ) : ℝ :=
  (Finset.range channels).sup' (Finset.nonempty_range_iff.mpr hch)
    (fun c => x ((n * channels + c) * spatial_dim + s))

/-! ## Index arithmetic -/

lemma elem_idx_lt {num channels spatial_dim n c s : ℕ}
    (hn : n < num) (hc : c < channels) (hs : s < spatial_dim) :
    (n * channels + c) * spatial_dim + s < num * channels * spatial_dim := by
  have h1 : n * channels + c + 1 ≤ num * channels := by
    have h2 : (n + 1) * channels ≤ num * channels :=
      Nat.mul_le_mul_right _ (Nat.succ_le_of_lt hn)
    have h3 : n * channels + channels = (n + 1) * channels := by ring
    omega
  calc (n * channels + c) * spatial_dim + s
      < (n * channels + c) * spatial_dim + spatial_dim := by omega
    _ = (n * channels + c + 1) * spatial_dim := by ring
    _ ≤ num * channels * spatial_dim := Nat.mul_le_mul_right _ h1

lemma group_idx_lt {num spatial_dim n s : ℕ} (hn : n < num) (hs : s < spatial_dim) :
    n * spatial_dim + s < num * spatial_dim := by
  calc n * spatial_dim + s < n * spatial_dim + spatial_dim := by omega
    _ = (n + 1) * spatial_dim := by ring
    _ ≤ num * spatial_dim := Nat.mul_le_mul_right _ (Nat.succ_le_of_lt hn)

lemma group_idx_div {spatial_dim n s : ℕ} (hs : s < spatial_dim) :
    (n * spatial_dim + s) / spatial_dim = n := by
  have h0 : 0 < spatial_dim := by omega
  rw [Nat.add_comm, Nat.mul_comm, Nat.add_mul_div_left _ _ h0, Nat.div_eq_of_lt hs,
    Nat.zero_add]

lemma group_idx_mod {spatial_dim n s : ℕ} (hs : s < spatial_dim) :
    (n * spatial_dim + s) % spatial_dim = s := by
  rw [Nat.add_comm, Nat.mul_comm, Nat.add_mul_mod_self_left, Nat.mod_eq_of_lt hs]

lemma elem_idx_mod {channels spatial_dim n c s : ℕ} (hs : s < spatial_dim) :
    ((n * channels + c) * spatial_dim + s) % spatial_dim = s :=
  group_idx_mod hs

lemma sub_group_lt {channels spatial_dim c s : ℕ} (hc : c < channels) (hs : s < spatial_dim) :
    c * spatial_dim + s < channels * spatial_dim :=
  group_idx_lt hc hs

lemma elem_idx_div2 {channels spatial_dim n c s : ℕ}
    (hc : c < channels) (hs : s < spatial_dim) :
    ((n * channels + c) * spatial_dim + s) / channels / spatial_dim = n := by
  have hpos : 0 < channels * spatial_dim := Nat.mul_pos (by omega) (by omega)
  have hsplit : (n * channels + c) * spatial_dim + s
      = channels * spatial_dim * n + (c * spatial_dim + s) := by ring
  rw [Nat.div_div_eq_div_mul, hsplit, Nat.mul_add_div hpos,
    Nat.div_eq_of_lt (sub_group_lt hc hs), Nat.add_zero]

/-! ## Fold characterizations -/

lemma foldl_max_congr {f g : ℕ → ℝ} :
    ∀ (l : List ℕ) (a : ℝ), (∀ c ∈ l, f c = g c) →
      l.foldl (fun m c => max (f c) m) a = l.foldl (fun m c => max (g c) m) a := by
  intro l
  induction l with
  | nil => intro a _; rfl
  | cons x xs ih =>
    intro a h
    simp only [List.foldl_cons]
    rw [h x (List.mem_cons_self x xs)]
    exact ih _ (fun c hc => h c (List.mem_cons_of_mem x hc))

lemma foldl_add_congr {f g : ℕ → ℝ} :
    ∀ (l : List ℕ) (a : ℝ), (∀ c ∈ l, f c = g c) →
      l.foldl (fun m c => m + f c) a = l.foldl (fun m c => m + g c) a := by
  intro l
  induction l with
  | nil => intro a _; rfl
  | cons x xs ih =>
    intro a h
    simp only [List.foldl_cons]
    rw [h x (List.mem_cons_self x xs)]
    exact ih _ (fun c hc => h c (List.mem_cons_of_mem x hc))

lemma le_foldl_max (f : ℕ → ℝ) :
    ∀ (l : List ℕ) (a : ℝ), a ≤ l.foldl (fun m c => max (f c) m) a := by
  intro l
  induction l with
  | nil => intro a; exact le_refl a
  | cons x xs ih =>
    intro a
    exact le_trans (le_max_right (f x) a) (ih (max (f x) a))

lemma mem_le_foldl_max (f : ℕ → ℝ) {c : ℕ} :
    ∀ (l : List ℕ) (a : ℝ), c ∈ l → f c ≤ l.foldl (fun m c => max (f c) m) a := by
  intro l
  induction l with
  | nil => intro a h; cases h
  | cons x xs ih =>
    intro a h
    rcases List.mem_cons.mp h with h | h
    · subst h
      exact le_trans (le_max_left (f c) a) (le_foldl_max f xs _)
    · exact ih _ h

/-- The max scan over `List.range channels` with initial accumulator `a` is
`max a` of the true channel maximum, for `channels ≠ 0`. -/
lemma range_foldl_max_eq (channels : ℕ) (hch : channels ≠ 0) (f : ℕ → ℝ) (a : ℝ) :
    (List.range channels).foldl (fun m c => max (f c) m) a
      = max a ((Finset.range channels).sup' (Finset.nonempty_range_iff.mpr hch) f) := by
  induction channels with
  | zero => exact absurd rfl hch
  | succ k ih =>
    rw [List.range_succ, List.foldl_append]
    by_cases hk : k = 0
    · subst hk
      simp only [List.range_zero, List.foldl_nil, List.foldl_cons]
      have h1 : (Finset.range 1).sup' (Finset.nonempty_range_iff.mpr hch) f = f 0 := by
        refine le_antisymm (Finset.sup'_le _ _ ?_) (Finset.le_sup' f ?_)
        · intro b hb
          have hb1 : b = 0 := by
            have := Finset.mem_range.mp hb
            omega
          subst hb1
          exact le_refl _
        · exact Finset.mem_range.mpr Nat.one_pos
      rw [h1]
      exact max_comm (f 0) a
    · rw [ih hk]
      simp only [List.foldl_cons, List.foldl_nil]
      have h2 : (Finset.range (k + 1)).sup' (Finset.nonempty_range_iff.mpr hch) f
          = max (f k) ((Finset.range k).sup' (Finset.nonempty_range_iff.mpr hk) f) := by
        refine le_antisymm (Finset.sup'_le _ _ ?_) (max_le ?_ (Finset.sup'_le _ _ ?_))
        · intro b hb
          have hb1 : b < k + 1 := Finset.mem_range.mp hb
          by_cases hbk : b = k
          · subst hbk
            exact le_max_left _ _
          · exact le_trans
              (Finset.le_sup' f (Finset.mem_range.mpr (by omega))) (le_max_right _ _)
        · exact Finset.le_sup' f (Finset.mem_range.mpr (Nat.lt_succ_self k))
        · intro b hb
          exact Finset.le_sup' f
            (Finset.mem_range.mpr (Nat.lt_succ_of_lt (Finset.mem_range.mp hb)))
      rw [h2]
      rw [max_comm (f k) (max a _), max_assoc]
      exact congrArg (max a) (max_comm _ _)

/-- The additive scan over `List.range channels` starting from `a` is
`a` plus the `Finset.range` sum. -/
lemma range_foldl_add_eq (channels : ℕ) (f : ℕ → ℝ) (a : ℝ) :
    (List.range channels).foldl (fun m c => m + f c) a
      = a + ∑ c ∈ Finset.range channels, f c := by
  induction channels with
  | zero => simp
  | succ k ih =>
    rw [List.range_succ, List.foldl_append, ih, Finset.sum_range_succ]
    simp only [List.foldl_cons, List.foldl_nil]
    ring

/-! ## Kernel evaluation lemmas -/

lemma caffe_copy_eval (count : ℕ) (src dst : ℕ → ℝ) {i : ℕ} (hi : i < count) :
    caffe_copy count src dst i = src i := by
  unfold caffe_copy
  rw [if_pos hi]

lemma caffe_gpu_mul_eval (count : ℕ) (a b y : ℕ → ℝ) {i : ℕ} (hi : i < count) :
    caffe_gpu_mul count a b y i = a i * b i := by
  unfold caffe_gpu_mul
  rw [if_pos hi]

lemma kernel_exp_eval (count : ℕ) (data out : ℕ → ℝ) {i : ℕ} (hi : i < count) :
    kernel_exp count data out i = Real.exp (data i) := by
  unfold kernel_exp
  rw [if_pos hi]

lemma kernel_channel_max_eval (num channels spatial_dim : ℕ) (hch : channels ≠ 0)
    (data out : ℕ → ℝ) {n s : ℕ} (hn : n < num) (hs : s < spatial_dim) :
    kernel_channel_max num channels spatial_dim data out (n * spatial_dim + s)
      = max (-FLT_MAX) (specChannelMax channels spatial_dim hch data n s) := by
  unfold kernel_channel_max
  rw [if_pos (group_idx_lt hn hs)]
  simp only [group_idx_div hs, group_idx_mod hs]
  exact range_foldl_max_eq channels hch
    (fun c => data ((n * channels + c) * spatial_dim + s)) (-FLT_MAX)

lemma kernel_channel_sum_eval (num channels spatial_dim : ℕ)
    (data channel_sum : ℕ → ℝ) {n s : ℕ} (hn : n < num) (hs : s < spatial_dim) :
    kernel_channel_sum num channels spatial_dim data channel_sum (n * spatial_dim + s)
      = ∑ c ∈ Finset.range channels, data ((n * channels + c) * spatial_dim + s) := by
  unfold kernel_channel_sum
  rw [if_pos (group_idx_lt hn hs)]
  simp only [group_idx_div hs, group_idx_mod hs]
  have := range_foldl_add_eq channels
    (fun c => data ((n * channels + c) * spatial_dim + s)) 0
  simpa using this

lemma kernel_channel_dot_eval (num channels spatial_dim : ℕ)
    (data_1 data_2 channel_dot : ℕ → ℝ) {n s : ℕ} (hn : n < num) (hs : s < spatial_dim) :
    kernel_channel_dot num channels spatial_dim data_1 data_2 channel_dot (n * spatial_dim + s)
      = ∑ c ∈ Finset.range channels,
          data_1 ((n * channels + c) * spatial_dim + s) *
            data_2 ((n * channels + c) * spatial_dim + s) := by
  unfold kernel_channel_dot
  rw [if_pos (group_idx_lt hn hs)]
  simp only [group_idx_div hs, group_idx_mod hs]
  have := range_foldl_add_eq channels
    (fun c => data_1 ((n * channels + c) * spatial_dim + s) *
      data_2 ((n * channels + c) * spatial_dim + s)) 0
  simpa using this

lemma kernel_channel_subtract_eval (count num channels spatial_dim : ℕ)
    (channel_max data : ℕ → ℝ) {n c s : ℕ} (hc : c < channels) (hs : s < spatial_dim)
    (hlt : (n * channels + c) * spatial_dim + s < count) :
    kernel_channel_subtract count num channels spatial_dim channel_max data
        ((n * channels + c) * spatial_dim + s)
      = data ((n * channels + c) * spatial_dim + s) - channel_max (n * spatial_dim + s) := by
  unfold kernel_channel_subtract
  rw [if_pos hlt, elem_idx_div2 hc hs, elem_idx_mod hs]

lemma kernel_channel_div_eval (count num channels spatial_dim : ℕ)
    (channel_sum data : ℕ → ℝ) {n c s : ℕ} (hc : c < channels) (hs : s < spatial_dim)
    (hlt : (n * channels + c) * spatial_dim + s < count) :
    kernel_channel_div count num channels spatial_dim channel_sum data
        ((n * channels + c) * spatial_dim + s)
      = data ((n * channels + c) * spatial_dim + s) / channel_sum (n * spatial_dim + s) := by
  unfold kernel_channel_div
  rw [if_pos hlt, elem_idx_div2 hc hs, elem_idx_mod hs]

/-! ## Forward pipeline trace -/

lemma le_specChannelMax (channels spatial_dim : ℕ) (hch : channels ≠ 0) (x : ℕ → ℝ)
    (n s : ℕ) {c : ℕ} (hc : c < channels) :
    x ((n * channels + c) * spatial_dim + s) ≤ specChannelMax channels spatial_dim hch x n s := by
  unfold specChannelMax
  exact Finset.le_sup' (fun c => x ((n * channels + c) * spatial_dim + s))
    (Finset.mem_range.mpr hc)

lemma single_le_range_sum (channels : ℕ) (g : ℕ → ℝ) {c : ℕ} (hc : c < channels)
    (hg : ∀ j, 0 ≤ g j) : g c ≤ ∑ x ∈ Finset.range channels, g x :=
  Finset.single_le_sum (fun j _ => hg j) (Finset.mem_range.mpr hc)

lemma specChannelMax_congr (channels spatial_dim : ℕ) (hch : channels ≠ 0)
    {x y : ℕ → ℝ} (n s : ℕ)
    (h : ∀ c < channels, x ((n * channels + c) * spatial_dim + s)
      = y ((n * channels + c) * spatial_dim + s)) :
    specChannelMax channels spatial_dim hch x n s
      = specChannelMax channels spatial_dim hch y n s := by
  unfold specChannelMax
  exact Finset.sup'_congr _ rfl (fun c hc => h c (Finset.mem_range.mp hc))

lemma fwdTop0_eval (num channels spatial_dim : ℕ) (st : SoftmaxBufs) {i : ℕ}
    (hi : i < num * channels * spatial_dim) :
    fwdTop0 num channels spatial_dim st i = st.bottom i :=
  caffe_copy_eval _ _ _ hi

/-- After the channel-max stage, the scratch cell of group `(n, s)` holds
`max (-FLT_MAX) (channel maximum of the input)`. -/
lemma fwdScale1_eval (num channels spatial_dim : ℕ) (hch : channels ≠ 0)
    (st : SoftmaxBufs) {n s : ℕ} (hn : n < num) (hs : s < spatial_dim) :
    fwdScale1 num channels spatial_dim st (n * spatial_dim + s)
      = max (-FLT_MAX) (specChannelMax channels spatial_dim hch st.bottom n s) := by
  unfold fwdScale1
  rw [kernel_channel_max_eval num channels spatial_dim hch _ _ hn hs]
  refine congrArg _ (specChannelMax_congr channels spatial_dim hch n s fun c hc => ?_)
  exact fwdTop0_eval num channels spatial_dim st (elem_idx_lt hn hc hs)

/-- After the broadcast-subtract stage, element `(n, c, s)` of the working
tensor holds the input value minus `max (-FLT_MAX) (channel maximum)`. -/
lemma fwdTop1_eval (num channels spatial_dim : ℕ) (st : SoftmaxBufs) {n c s : ℕ}
    (hn : n < num) (hc : c < channels) (hs : s < spatial_dim) :
    fwdTop1 num channels spatial_dim st ((n * channels + c) * spatial_dim + s)
      = st.bottom ((n * channels + c) * spatial_dim + s) -
          max (-FLT_MAX)
            (specChannelMax channels spatial_dim (by omega) st.bottom n s) := by
  unfold fwdTop1
  rw [kernel_channel_subtract_eval _ _ _ _ _ _ hc hs (elem_idx_lt hn hc hs),
    fwdTop0_eval num channels spatial_dim st (elem_idx_lt hn hc hs),
    fwdScale1_eval num channels spatial_dim (by omega) st hn hs]

/-- After the exponentiation stage, element `(n, c, s)` holds
`exp (input - max (-FLT_MAX) (channel maximum))`. -/
lemma fwdTop2_eval (num channels spatial_dim : ℕ) (st : SoftmaxBufs) {n c s : ℕ}
    (hn : n < num) (hc : c < channels) (hs : s < spatial_dim) :
    fwdTop2 num channels spatial_dim st ((n * channels + c) * spatial_dim + s)
      = Real.exp (st.bottom ((n * channels + c) * spatial_dim + s) -
          max (-FLT_MAX)
            (specChannelMax channels spatial_dim (by omega) st.bottom n s)) := by
  unfold fwdTop2
  rw [kernel_exp_eval _ _ _ (elem_idx_lt hn hc hs), fwdTop1_eval num channels spatial_dim st hn hc hs]

/-- After the channel-sum stage, the scratch cell of group `(n, s)` holds the
sum over channels of the exponentials. -/
lemma fwdScale2_eval (num channels spatial_dim : ℕ) (st : SoftmaxBufs) {n s : ℕ}
    (hch : channels ≠ 0) (hn : n < num) (hs : s < spatial_dim) :
    fwdScale2 num channels spatial_dim st (n * spatial_dim + s)
      = ∑ c ∈ Finset.range channels,
          Real.exp (st.bottom ((n * channels + c) * spatial_dim + s) -
            max (-FLT_MAX)
              (specChannelMax channels spatial_dim hch st.bottom n s)) := by
  unfold fwdScale2
  rw [kernel_channel_sum_eval num channels spatial_dim _ _ hn hs]
  refine Finset.sum_congr rfl fun c hc => ?_
  exact fwdTop2_eval num channels spatial_dim st hn (Finset.mem_range.mp hc) hs

/-- After the broadcast-divide stage, element `(n, c, s)` holds the stabilized
softmax value computed by the code. -/
lemma fwdTop3_eval (num channels spatial_dim : ℕ) (st : SoftmaxBufs) {n c s : ℕ}
    (hn : n < num) (hc : c < channels) (hs : s < spatial_dim) :
    fwdTop3 num channels spatial_dim st ((n * channels + c) * spatial_dim + s)
      = Real.exp (st.bottom ((n * channels + c) * spatial_dim + s) -
          max (-FLT_MAX)
            (specChannelMax channels spatial_dim (by omega) st.bottom n s)) /
        ∑ x ∈ Finset.range channels,
          Real.exp (st.bottom ((n * channels + x) * spatial_dim + s) -
            max (-FLT_MAX)
              (specChannelMax channels spatial_dim (by omega) st.bottom n s)) := by
  unfold fwdTop3
  rw [kernel_channel_div_eval _ _ _ _ _ _ hc hs (elem_idx_lt hn hc hs),
    fwdTop2_eval num channels spatial_dim st hn hc hs,
    fwdScale2_eval num channels spatial_dim st (by omega) hn hs]

/-! ## Softmax algebra -/

/-- Subtracting any common shift `t` inside the exponentials leaves the
softmax ratio unchanged. -/
lemma exp_ratio_shift (channels : ℕ) (g : ℕ → ℝ) (t : ℝ) (c : ℕ) :
    Real.exp (g c - t) / ∑ x ∈ Finset.range channels, Real.exp (g x - t)
      = Real.exp (g c) / ∑ x ∈ Finset.range channels, Real.exp (g x) := by
  have hsum : ∑ x ∈ Finset.range channels, Real.exp (g x - t)
      = Real.exp (-t) * ∑ x ∈ Finset.range channels, Real.exp (g x) := by
    rw [Finset.mul_sum]
    refine Finset.sum_congr rfl fun x _ => ?_
    rw [sub_eq_add_neg, Real.exp_add, mul_comm]
  rw [hsum, sub_eq_add_neg, Real.exp_add, mul_comm (Real.exp (g c)) (Real.exp (-t))]
  exact mul_div_mul_left _ _ (Real.exp_ne_zero (-t))

/-- The unshifted closed form of the forward pass: for every in-range
element, the output is `exp (input) / sum over channels of exp (input)`. -/
lemma fwdTop3_closed (num channels spatial_dim : ℕ) (st : SoftmaxBufs) {n c s : ℕ}
    (hn : n < num) (hc : c < channels) (hs : s < spatial_dim) :
    fwdTop3 num channels spatial_dim st ((n * channels + c) * spatial_dim + s)
      = Real.exp (st.bottom ((n * channels + c) * spatial_dim + s)) /
        ∑ x ∈ Finset.range channels,
          Real.exp (st.bottom ((n * channels + x) * spatial_dim + s)) := by
  rw [fwdTop3_eval num channels spatial_dim st hn hc hs]
  have := exp_ratio_shift channels
    (fun x => st.bottom ((n * channels + x) * spatial_dim + s))
    (max (-FLT_MAX)
      (specChannelMax channels spatial_dim (by omega) st.bottom n s)) c
  simpa using this

/-! ## Backward pipeline trace -/

/-- After the channel-dot stage, the scratch cell of group `(n, s)` holds the
inner product across channels of the top diff and the top data. -/
lemma bwdScale1_eval (num channels spatial_dim : ℕ) (st : SoftmaxGradBufs) {n s : ℕ}
    (hn : n < num) (hs : s < spatial_dim) :
    bwdScale1 num channels spatial_dim st (n * spatial_dim + s)
      = ∑ c ∈ Finset.range channels,
          st.top_diff ((n * channels + c) * spatial_dim + s) *
            st.top_data ((n * channels + c) * spatial_dim + s) :=
  kernel_channel_dot_eval num channels spatial_dim _ _ _ hn hs

/-- Full backward closed form before the final commutation: element `(n, c, s)`
of the produced gradient is `(top_diff - dot) * top_data`. -/
lemma bwdDiff2_eval (num channels spatial_dim : ℕ) (st : SoftmaxGradBufs) {n c s : ℕ}
    (hn : n < num) (hc : c < channels) (hs : s < spatial_dim) :
    bwdDiff2 num channels spatial_dim st ((n * channels + c) * spatial_dim + s)
      = (st.top_diff ((n * channels + c) * spatial_dim + s) -
          ∑ x ∈ Finset.range channels,
            st.top_diff ((n * channels + x) * spatial_dim + s) *
              st.top_data ((n * channels + x) * spatial_dim + s)) *
        st.top_data ((n * channels + c) * spatial_dim + s) := by
  unfold bwdDiff2
  rw [caffe_gpu_mul_eval _ _ _ _ (elem_idx_lt hn hc hs)]
  unfold bwdDiff1
  rw [kernel_channel_subtract_eval _ _ _ _ _ _ hc hs (elem_idx_lt hn hc hs)]
  unfold bwdDiff0
  rw [caffe_copy_eval _ _ _ (elem_idx_lt hn hc hs),
    bwdScale1_eval num channels spatial_dim st hn hs]

/-! ## Claim theorems -/

/-- C1: Forward pass correctness. For every input tensor and every in-range
batch index `n`, channel `c` and spatial position `s`, the five-stage forward
orchestration (copy, channel-max, broadcast-subtract, exponentiate,
channel-sum, broadcast-divide, which is exactly the definition of
`Forward_gpu`) produces
`output[n,c,s] = exp(input[n,c,s] - max_c input) / sum_c exp(input[n,c,s] - max_c input)`. -/
theorem forward_softmax_formula (num channels spatial_dim : ℕ) (st : SoftmaxBufs)
    (hch : channels ≠ 0) (n c s : ℕ)
    (hn : n < num) (hc : c < channels) (hs : s < spatial_dim) :
    (Forward_gpu num channels spatial_dim st).top ((n * channels + c) * spatial_dim + s)
      = Real.exp (st.bottom ((n * channels + c) * spatial_dim + s) -
          specChannelMax channels spatial_dim hch st.bottom n s) /
        ∑ x ∈ Finset.range channels,
          Real.exp (st.bottom ((n * channels + x) * spatial_dim + s) -
            specChannelMax channels spatial_dim hch st.bottom n s) := by
  have htop : (Forward_gpu num channels spatial_dim st).top
      = fwdTop3 num channels spatial_dim st := rfl
  rw [htop, fwdTop3_closed num channels spatial_dim st hn hc hs]
  have := exp_ratio_shift channels
    (fun x => st.bottom ((n * channels + x) * spatial_dim + s))
    (specChannelMax channels spatial_dim hch st.bottom n s) c
  simpa using this.symm

/-- Witness for C1 at `num = channels = spatial_dim = 1`, constant input `0`. -/
theorem forward_softmax_formula_witness :
    (Forward_gpu 1 1 1 ⟨fun _ => 0, fun _ => 0, fun _ => 0⟩).top ((0 * 1 + 0) * 1 + 0)
      = Real.exp ((0 : ℝ) -
          specChannelMax 1 1 one_ne_zero (fun _ => (0 : ℝ)) 0 0) /
        ∑ x ∈ Finset.range 1,
          Real.exp ((0 : ℝ) -
            specChannelMax 1 1 one_ne_zero (fun _ => (0 : ℝ)) 0 0) :=
  forward_softmax_formula 1 1 1 ⟨fun _ => 0, fun _ => 0, fun _ => 0⟩ one_ne_zero
    0 0 0 Nat.zero_lt_one Nat.zero_lt_one Nat.zero_lt_one

/-- C2: Backward pass correctness. For every upstream gradient (top diff) and
forward output (top data), the backward orchestration (copy, channel-dot,
broadcast-subtract, elementwise multiply, which is exactly the definition of
`Backward_gpu`) produces
`grad_input[n,c,s] = output[n,c,s] * (grad_output[n,c,s] - dot_c(grad_output, output)[n,s])`. -/
theorem backward_gradient_formula (num channels spatial_dim : ℕ)
    (propagate_down : List Bool) (st : SoftmaxGradBufs) (n c s : ℕ)
    (hn : n < num) (hc : c < channels) (hs : s < spatial_dim) :
    (Backward_gpu num channels spatial_dim propagate_down st).bottom_diff
        ((n * channels + c) * spatial_dim + s)
      = st.top_data ((n * channels + c) * spatial_dim + s) *
        (st.top_diff ((n * channels + c) * spatial_dim + s) -
          ∑ x ∈ Finset.range channels,
            st.top_diff ((n * channels + x) * spatial_dim + s) *
              st.top_data ((n * channels + x) * spatial_dim + s)) := by
  have hbd : (Backward_gpu num channels spatial_dim propagate_down st).bottom_diff
      = bwdDiff2 num channels spatial_dim st := rfl
  rw [hbd, bwdDiff2_eval num channels spatial_dim st hn hc hs, mul_comm]

/-- Witness for C2 at `num = channels = spatial_dim = 1`. -/
theorem backward_gradient_formula_witness :
    (Backward_gpu 1 1 1 [] ⟨fun _ => 1, fun _ => 1, fun _ => 0, fun _ => 0⟩).bottom_diff
        ((0 * 1 + 0) * 1 + 0)
      = (1 : ℝ) * ((1 : ℝ) - ∑ _x ∈ Finset.range 1, (1 : ℝ) * (1 : ℝ)) :=
  backward_gradient_formula 1 1 1 [] ⟨fun _ => 1, fun _ => 1, fun _ => 0, fun _ => 0⟩
    0 0 0 Nat.zero_lt_one Nat.zero_lt_one Nat.zero_lt_one

/-- C8: Broadcast index decomposition. For every linear index `i < count`,
`kernel_channel_subtract` computes `data[i] - scalar[n * spatial_dim + s]`
with `n = i / (channels * spatial_dim)` and `s = i % spatial_dim`;
equivalently, the element at coordinates `(n, c, s)` has the scalar of its
own group `(n, s)` subtracted, independently of `c`. -/
theorem subtract_index_decomposition (count num channels spatial_dim : ℕ)
    (scalar data : ℕ → ℝ) (i : ℕ) (hi : i < count) :
    kernel_channel_subtract count num channels spatial_dim scalar data i
        = data i - scalar (i / (channels * spatial_dim) * spatial_dim + i % spatial_dim)
    ∧ ∀ n c s, c < channels → s < spatial_dim →
        i = (n * channels + c) * spatial_dim + s →
        kernel_channel_subtract count num channels spatial_dim scalar data i
          = data i - scalar (n * spatial_dim + s) := by
  constructor
  · unfold kernel_channel_subtract
    rw [if_pos hi, Nat.div_div_eq_div_mul]
  · intro n c s hc hs hieq
    subst hieq
    exact kernel_channel_subtract_eval count num channels spatial_dim scalar data hc hs hi

/-- Witness for C8 at `count = 8`, `num = 2`, `channels = 2`,
`spatial_dim = 2`, `i = 7`. -/
theorem subtract_index_decomposition_witness :
    (kernel_channel_subtract 8 2 2 2 (fun j => (j : ℝ)) (fun j => (j : ℝ)) 7
        = (7 : ℝ) - ((7 / (2 * 2) * 2 + 7 % 2 : ℕ) : ℝ)
      ∧ ∀ n c s, c < 2 → s < 2 → 7 = (n * 2 + c) * 2 + s →
          kernel_channel_subtract 8 2 2 2 (fun j => (j : ℝ)) (fun j => (j : ℝ)) 7
            = (7 : ℝ) - ((n * 2 + s : ℕ) : ℝ)) :=
  subtract_index_decomposition 8 2 2 2 (fun j => (j : ℝ)) (fun j => (j : ℝ)) 7
    (by norm_num)

/-- C9 (implicit frame property): `Forward_gpu` never modifies the bottom
(input) buffer; it writes only the top and scale buffers. -/
theorem forward_preserves_bottom (num channels spatial_dim : ℕ) (st : SoftmaxBufs) :
    (Forward_gpu num channels spatial_dim st).bottom = st.bottom := rfl

/-- C10 (implicit): `Backward_gpu` ignores its `propagate_down` argument: the
resulting state is the same for every value of it (including all-false), so
the bottom gradient is computed unconditionally from the top diff and the
top data alone. -/
theorem backward_ignores_propagate_down (num channels spatial_dim : ℕ)
    (pd pd' : List Bool) (st : SoftmaxGradBufs) :
    Backward_gpu num channels spatial_dim pd st
      = Backward_gpu num channels spatial_dim pd' st := rfl

/-- C4: Normalization. After the forward pass, for every group `(n, s)` the
output summed over channels equals `1`, and every output element lies in the
half-open interval `(0, 1]`. -/
theorem forward_normalization (num channels spatial_dim : ℕ) (st : SoftmaxBufs)
    (hch : channels ≠ 0) (n s : ℕ) (hn : n < num) (hs : s < spatial_dim) :
    (∑ c ∈ Finset.range channels,
        (Forward_gpu num channels spatial_dim st).top
          ((n * channels + c) * spatial_dim + s)) = 1
    ∧ ∀ c < channels,
        0 < (Forward_gpu num channels spatial_dim st).top
              ((n * channels + c) * spatial_dim + s)
        ∧ (Forward_gpu num channels spatial_dim st).top
              ((n * channels + c) * spatial_dim + s) ≤ 1 := by
  have htop : (Forward_gpu num channels spatial_dim st).top
      = fwdTop3 num channels spatial_dim st := rfl
  have hS : 0 < ∑ x ∈ Finset.range channels,
      Real.exp (st.bottom ((n * channels + x) * spatial_dim + s)) :=
    Finset.sum_pos (fun x _ => Real.exp_pos _) (Finset.nonempty_range_iff.mpr hch)
  constructor
  · rw [htop]
    have hrw : ∀ c ∈ Finset.range channels,
        fwdTop3 num channels spatial_dim st ((n * channels + c) * spatial_dim + s)
          = Real.exp (st.bottom ((n * channels + c) * spatial_dim + s)) /
            ∑ x ∈ Finset.range channels,
              Real.exp (st.bottom ((n * channels + x) * spatial_dim + s)) :=
      fun c hc => fwdTop3_closed num channels spatial_dim st hn (Finset.mem_range.mp hc) hs
    rw [Finset.sum_congr rfl hrw, ← Finset.sum_div]
    exact div_self hS.ne'
  · intro c hc
    rw [htop, fwdTop3_closed num channels spatial_dim st hn hc hs]
    refine ⟨div_pos (Real.exp_pos _) hS, (div_le_one hS).mpr ?_⟩
    exact single_le_range_sum channels
      (fun x => Real.exp (st.bottom ((n * channels + x) * spatial_dim + s))) hc
      (fun j => (Real.exp_pos _).le)

/-- Witness for C4 at `num = channels = spatial_dim = 1`, constant input `0`. -/
theorem forward_normalization_witness :
    (∑ c ∈ Finset.range 1,
        (Forward_gpu 1 1 1 ⟨fun _ => 0, fun _ => 0, fun _ => 0⟩).top
          ((0 * 1 + c) * 1 + 0)) = 1
    ∧ ∀ c < 1,
        0 < (Forward_gpu 1 1 1 ⟨fun _ => 0, fun _ => 0, fun _ => 0⟩).top
              ((0 * 1 + c) * 1 + 0)
        ∧ (Forward_gpu 1 1 1 ⟨fun _ => 0, fun _ => 0, fun _ => 0⟩).top
              ((0 * 1 + c) * 1 + 0) ≤ 1 :=
  forward_normalization 1 1 1 ⟨fun _ => 0, fun _ => 0, fun _ => 0⟩ one_ne_zero
    0 0 Nat.zero_lt_one Nat.zero_lt_one

/-- C5: Shift invariance. If the input of `st'` differs from the input of
`st` by a per-group constant `k n s` added to all channels of group `(n, s)`,
then the forward pass produces the same output on both. -/
theorem forward_shift_invariance (num channels spatial_dim : ℕ) (st st' : SoftmaxBufs)
    (k : ℕ → ℕ → ℝ)
    (hshift : ∀ n c s, n < num → c < channels → s < spatial_dim →
      st'.bottom ((n * channels + c) * spatial_dim + s)
        = st.bottom ((n * channels + c) * spatial_dim + s) + k n s)
    (n c s : ℕ) (hn : n < num) (hc : c < channels) (hs : s < spatial_dim) :
    (Forward_gpu num channels spatial_dim st').top ((n * channels + c) * spatial_dim + s)
      = (Forward_gpu num channels spatial_dim st).top
          ((n * channels + c) * spatial_dim + s) := by
  have htop' : (Forward_gpu num channels spatial_dim st').top
      = fwdTop3 num channels spatial_dim st' := rfl
  have htop : (Forward_gpu num channels spatial_dim st).top
      = fwdTop3 num channels spatial_dim st := rfl
  rw [htop', htop, fwdTop3_closed num channels spatial_dim st' hn hc hs,
    fwdTop3_closed num channels spatial_dim st hn hc hs,
    hshift n c s hn hc hs]
  have hden : ∑ x ∈ Finset.range channels,
      Real.exp (st'.bottom ((n * channels + x) * spatial_dim + s))
      = ∑ x ∈ Finset.range channels,
        Real.exp (st.bottom ((n * channels + x) * spatial_dim + s) + k n s) :=
    Finset.sum_congr rfl fun x hx =>
      congrArg Real.exp (hshift n x s hn (Finset.mem_range.mp hx) hs)
  rw [hden]
  have hratio := exp_ratio_shift channels
    (fun x => st.bottom ((n * channels + x) * spatial_dim + s) + k n s) (k n s) c
  simp only [add_sub_cancel_right] at hratio
  simpa using hratio.symm

/-- Witness for C5 at `num = channels = spatial_dim = 1`: input `0` shifted
by the per-group constant `1`. -/
theorem forward_shift_invariance_witness :
    (Forward_gpu 1 1 1 ⟨fun _ => 1, fun _ => 0, fun _ => 0⟩).top ((0 * 1 + 0) * 1 + 0)
      = (Forward_gpu 1 1 1 ⟨fun _ => 0, fun _ => 0, fun _ => 0⟩).top
          ((0 * 1 + 0) * 1 + 0) :=
  forward_shift_invariance 1 1 1 ⟨fun _ => 0, fun _ => 0, fun _ => 0⟩
    ⟨fun _ => 1, fun _ => 0, fun _ => 0⟩ (fun _ _ => 1)
    (fun _ _ _ _ _ _ => by norm_num) 0 0 0
    Nat.zero_lt_one Nat.zero_lt_one Nat.zero_lt_one

/-- C6: Stability invariant. Immediately after the broadcast-subtract stage,
every in-range element of the working tensor is at most `0`, so the argument
to the exponentiation stage is always non-positive. -/
theorem subtract_stage_nonpos (num channels spatial_dim : ℕ) (st : SoftmaxBufs)
    (i : ℕ) (hi : i < num * channels * spatial_dim) :
    fwdTop1 num channels spatial_dim st i ≤ 0 := by
  have hch : 0 < channels := by
    rcases Nat.eq_zero_or_pos channels with h | h
    · subst h; simp at hi
    · exact h
  have hsd : 0 < spatial_dim := by
    rcases Nat.eq_zero_or_pos spatial_dim with h | h
    · subst h; simp at hi
    · exact h
  have hprod : 0 < channels * spatial_dim := Nat.mul_pos hch hsd
  have hn : i / (channels * spatial_dim) < num := by
    rw [Nat.div_lt_iff_lt_mul hprod]
    calc i < num * channels * spatial_dim := hi
      _ = num * (channels * spatial_dim) := by ring
  have hr : i % (channels * spatial_dim) < channels * spatial_dim := Nat.mod_lt _ hprod
  have hc : i % (channels * spatial_dim) / spatial_dim < channels := by
    rw [Nat.div_lt_iff_lt_mul hsd]
    calc i % (channels * spatial_dim) < channels * spatial_dim := hr
      _ = channels * spatial_dim := rfl
  have hs : i % (channels * spatial_dim) % spatial_dim < spatial_dim := Nat.mod_lt _ hsd
  have hieq : i = (i / (channels * spatial_dim) * channels +
      i % (channels * spatial_dim) / spatial_dim) * spatial_dim +
      i % (channels * spatial_dim) % spatial_dim := by
    have h1 : channels * spatial_dim * (i / (channels * spatial_dim)) +
        i % (channels * spatial_dim) = i := Nat.div_add_mod i (channels * spatial_dim)
    have h2 : spatial_dim * (i % (channels * spatial_dim) / spatial_dim) +
        i % (channels * spatial_dim) % spatial_dim = i % (channels * spatial_dim) :=
      Nat.div_add_mod (i % (channels * spatial_dim)) spatial_dim
    calc i = channels * spatial_dim * (i / (channels * spatial_dim)) +
          i % (channels * spatial_dim) := h1.symm
      _ = channels * spatial_dim * (i / (channels * spatial_dim)) +
          (spatial_dim * (i % (channels * spatial_dim) / spatial_dim) +
            i % (channels * spatial_dim) % spatial_dim) := by rw [h2]
      _ = (i / (channels * spatial_dim) * channels +
            i % (channels * spatial_dim) / spatial_dim) * spatial_dim +
          i % (channels * spatial_dim) % spatial_dim := by ring
  rw [hieq, fwdTop1_eval num channels spatial_dim st hn hc hs]
  have hle : st.bottom ((i / (channels * spatial_dim) * channels +
        i % (channels * spatial_dim) / spatial_dim) * spatial_dim +
        i % (channels * spatial_dim) % spatial_dim)
      ≤ specChannelMax channels spatial_dim (by omega) st.bottom
          (i / (channels * spatial_dim)) (i % (channels * spatial_dim) % spatial_dim) :=
    le_specChannelMax channels spatial_dim (by omega) st.bottom _ _ hc
  have hle2 := le_trans hle
    (le_max_right (-FLT_MAX)
      (specChannelMax channels spatial_dim (by omega) st.bottom
        (i / (channels * spatial_dim)) (i % (channels * spatial_dim) % spatial_dim)))
  linarith

/-- Witness for C6 at `num = channels = spatial_dim = 1`, input `3`, `i = 0`. -/
theorem subtract_stage_nonpos_witness :
    fwdTop1 1 1 1 ⟨fun _ => 3, fun _ => 0, fun _ => 0⟩ 0 ≤ 0 :=
  subtract_stage_nonpos 1 1 1 ⟨fun _ => 3, fun _ => 0, fun _ => 0⟩ 0 (by norm_num)

/-- C7: Divisor non-zero safety. With `channels ≥ 1`, every scratch cell read
by the broadcast-divide stage (the channel-sum of exponentials for some group)
is strictly positive, so `kernel_channel_div` never divides by zero. -/
theorem divide_stage_divisor_pos (num channels spatial_dim : ℕ) (st : SoftmaxBufs)
    (hch : channels ≠ 0) (j : ℕ) (hj : j < num * spatial_dim) :
    0 < fwdScale2 num channels spatial_dim st j := by
  have hsd : 0 < spatial_dim := by
    rcases Nat.eq_zero_or_pos spatial_dim with h | h
    · subst h; simp at hj
    · exact h
  have hn : j / spatial_dim < num := by
    rw [Nat.div_lt_iff_lt_mul hsd]
    exact hj
  have hs : j % spatial_dim < spatial_dim := Nat.mod_lt _ hsd
  have hjeq : j = j / spatial_dim * spatial_dim + j % spatial_dim := by
    have h := Nat.div_add_mod j spatial_dim
    calc j = spatial_dim * (j / spatial_dim) + j % spatial_dim := h.symm
      _ = j / spatial_dim * spatial_dim + j % spatial_dim := by ring
  rw [hjeq, fwdScale2_eval num channels spatial_dim st hch hn hs]
  exact Finset.sum_pos (fun x _ => Real.exp_pos _) (Finset.nonempty_range_iff.mpr hch)

/-- Witness for C7 at `num = channels = spatial_dim = 1`, constant input `0`. -/
theorem divide_stage_divisor_pos_witness :
    0 < fwdScale2 1 1 1 ⟨fun _ => 0, fun _ => 0, fun _ => 0⟩ 0 :=
  divide_stage_divisor_pos 1 1 1 ⟨fun _ => 0, fun _ => 0, fun _ => 0⟩ one_ne_zero
    0 (by norm_num)

/-- C3, counterexample to the claim as stated: the scan's initial accumulator
is the fixed single-precision constant `-FLT_MAX` regardless of the element
type, so on a (double-precision-representable) input whose single channel
holds `-(2 * FLT_MAX)`, the kernel returns `-FLT_MAX`, not the channel
maximum `-(2 * FLT_MAX)`. -/
theorem channel_max_counterexample :
    kernel_channel_max 1 1 1 (fun _ => -(2 * FLT_MAX)) (fun _ => 0) 0
      ≠ specChannelMax 1 1 one_ne_zero (fun _ => -(2 * FLT_MAX)) 0 0 := by
  have hF : (0 : ℝ) < FLT_MAX := by
    unfold FLT_MAX
    norm_num
  have hrange : List.range 1 = [0] := by simp [List.range_succ]
  have hL : kernel_channel_max 1 1 1 (fun _ => -(2 * FLT_MAX)) (fun _ => 0) 0
      = -FLT_MAX := by
    unfold kernel_channel_max
    simp only [Nat.mul_one, Nat.zero_lt_one, if_true, hrange, List.foldl_cons,
      List.foldl_nil]
    exact max_eq_right (by linarith)
  have hR : specChannelMax 1 1 one_ne_zero (fun _ => -(2 * FLT_MAX)) 0 0
      = -(2 * FLT_MAX) := by
    unfold specChannelMax
    have hfun : (fun c => (fun _ : ℕ => -(2 * FLT_MAX)) ((0 * 1 + c) * 1 + 0))
        = (fun _ : ℕ => -(2 * FLT_MAX)) := rfl
    rw [hfun]
    exact Finset.sup'_const _ _
  rw [hL, hR]
  intro h
  have h2 : FLT_MAX = 2 * FLT_MAX := neg_injective h
  linarith

/-- C3, amended: for every input and every in-range group `(n, s)`, the max
kernel writes `out[n * spatial_dim + s] = max (-FLT_MAX) (max_c input)`: the
initial accumulator is the fixed single-precision constant `-FLT_MAX`
irrespective of the tensor's element type, and the result equals the channel
maximum exactly when some channel value is at least `-FLT_MAX`. -/
theorem channel_max_amended (num channels spatial_dim : ℕ) (hch : channels ≠ 0)
    (data out : ℕ → ℝ) (n s : ℕ) (hn : n < num) (hs : s < spatial_dim) :
    kernel_channel_max num channels spatial_dim data out (n * spatial_dim + s)
      = max (-FLT_MAX) (specChannelMax channels spatial_dim hch data n s) :=
  kernel_channel_max_eval num channels spatial_dim hch data out hn hs

/-- Witness for the amended C3 at `num = channels = spatial_dim = 1`,
input `5`. -/
theorem channel_max_amended_witness :
    kernel_channel_max 1 1 1 (fun _ => (5 : ℝ)) (fun _ => 0) (0 * 1 + 0)
      = max (-FLT_MAX) (specChannelMax 1 1 one_ne_zero (fun _ => (5 : ℝ)) 0 0) :=
  channel_max_amended 1 1 1 one_ne_zero (fun _ => (5 : ℝ)) (fun _ => 0) 0 0
    Nat.zero_lt_one Nat.zero_lt_one

end CaffeSoftmax
